import Mathlib

/-!
Shallow embedding of the sls log-aggregation server and client
(repository egtann/sls), covering:

* the `POST /log` request pipeline of `http/service.go` (revision with the
  `logfile` field and `listeners logChans`): `isLoggedIn`, `handleLog`,
  `postLog`, `execPostLog`;
* the broadcaster `logChans.Send` of `http/log_chans.go`;
* the constant-time credential check (`crypto/subtle.ConstantTimeCompare`);
* the buffered delivery client `Client.flush` of `client.go`;
* `Logfile` creation/rotation (`logfile.go`, `rotateLogfile`);
* the retention pass `deleteOldFiles` / `sortFilesByTimestamp` /
  `getFilesInDir`.

Go strings are modelled as Lean `String`s, byte slices as `List Nat`
(each entry a byte value), and `time.Time` values as an integer count of
seconds; the day-granularity timestamps embedded in log-file names are
converted to seconds through a proleptic-Gregorian day count.
-/

/-- One trailing newline is added to a line that lacks one; this is the
normalization `logChans.Send` applies before delivering a line.  Go's
`strings.HasSuffix(l, "\n")` tests the last byte; since `'\n'` is a
one-byte rune and UTF-8 continuation bytes are all at least `0x80`, this
is exactly a test on the final character. -/
def addNewline (s : String) : String :=
  if s.data.getLast? = some '\n' then s else s ++ "\n"

/-- Observable effects of `execPostLog`, in program order: a line delivered
to the listeners (`srv.listeners.Send l`) or a buffer written to the active
log file (`srv.logfile.Write`). -/
inductive Ev where
  | pub (line : String)
  | append (data : String)
deriving DecidableEq, Repr

def Ev.isAppend : Ev → Bool
  | .append _ => true
  | _ => false

def Ev.isPub : Ev → Bool
  | .pub _ => true
  | _ => false

/-- The loop body of `execPostLog`: for each decoded line `l`, in order,
`srv.listeners.Send(l)` runs and then `data += l`.  Returns the events of
the loop together with the accumulated `data` string. -/
def postLoop : List String → List Ev × String
  | [] => ([], "")
  | l :: rest =>
    let p := postLoop rest
    (Ev.pub (addNewline l) :: p.1, l ++ p.2)

/-- Concatenation of the batch lines exactly as the Go loop accumulates
`data` (no separator, no added newline). -/
def concatAll : List String → String
  | [] => ""
  | l :: rest => l ++ concatAll rest

/-- Embedding of `execPostLog` (service.go, logfile revision).  The JSON
decoding performed by `encoding/json` is external library code, so the
decode outcome is passed in: `.error e` for a malformed body, `.ok logs`
for a body that decoded to the string list `logs`.  On success the batch
is first fanned out line by line to the listeners and then written to the
active file in a single `Write` call; on decode failure the function
returns early having touched nothing.  Result: the error, or the new file
content together with the event trace. -/
def execPostLog (dec : Except String (List String)) (file : String) :
    Except String (String × List Ev) :=
  match dec with
  | .error e => .error ("decode body: " ++ e)
  | .ok logs =>
    let p := postLoop logs
    .ok (file ++ p.2, p.1 ++ [Ev.append p.2])

/-- Result of serving one request: HTTP status, response body, content of
the active log file afterwards, and the trace of publish/append events. -/
structure HandleResult where
  status : Nat
  body : String
  file : String
  trace : List Ev
deriving DecidableEq, Repr

/-- Embedding of `postLog`: on an `execPostLog` error the handler replies
`http.Error(w, err.Error(), http.StatusInternalServerError)` (status 500,
message plus a newline); on success it writes `OK` with the implicit
status 200. -/
def postLog (dec : Except String (List String)) (file : String) : HandleResult :=
  match execPostLog dec file with
  | .error e => ⟨500, e ++ "\n", file, []⟩
  | .ok (file', evs) => ⟨200, "OK", file', evs⟩

/-- Go's `crypto/subtle.ConstantTimeByteEq(x, 0)` for a byte `x`:
`uint32(x^y) - 1) >> 31` computed in 32-bit wrapping arithmetic. -/
def constantTimeByteEq (x y : Nat) : Nat :=
  (((x ^^^ y) + (2 ^ 32 - 1)) % 2 ^ 32) >>> 31

/-- The loop of `crypto/subtle.ConstantTimeCompare` instrumented with an
operation count: `v |= x[i] ^ y[i]` for every index, never exiting early.
Returns the accumulated `v` and the number of byte operations executed. -/
def ctAux : List Nat → List Nat → Nat → Nat × Nat
  | [], _, v => (v, 0)
  | _, [], v => (v, 0)
  | a :: as, b :: bs, v =>
    let p := ctAux as bs (v ||| (a ^^^ b))
    (p.1, p.2 + 1)

/-- Go's `crypto/subtle.ConstantTimeCompare`: zero when the lengths differ,
otherwise `ConstantTimeByteEq` of the or-accumulated xor of all bytes
against zero. -/
def constantTimeCompare (x y : List Nat) : Nat :=
  if x.length = y.length then constantTimeByteEq (ctAux x y 0).1 0 else 0

/-- Number of byte operations `ConstantTimeCompare` performs on inputs
`x` and `y` (the length check itself is one comparison regardless of
content). -/
def ctcSteps (x y : List Nat) : Nat :=
  if x.length = y.length then (ctAux x y 0).2 else 0

/-- Request methods reaching `handleLog`. -/
inductive Method where
  | get
  | post
  | other
deriving DecidableEq, Repr

/-- Embedding of the `/log` endpoint behind the `isLoggedIn` middleware:
the `X-API-Key` header bytes are compared against the configured key with
`subtle.ConstantTimeCompare`; any result other than 1 answers
`http.NotFound` (status 404, body `404 page not found` plus newline)
without invoking the handler.  `POST` runs `postLog`; any other
non-`GET` method answers `http.NotFound`.  `GET` switches to the
streaming tail path, which is modelled separately by `logChansSend`, so
it is represented by `none` here. -/
def serveLog (apiKey key : List Nat) (method : Method)
    (dec : Except String (List String)) (file : String) :
    Option HandleResult :=
  if constantTimeCompare apiKey key ≠ 1 then
    some ⟨404, "404 page not found\n", file, []⟩
  else
    match method with
    | .post => some (postLog dec file)
    | .get => none
    | .other => some ⟨404, "404 page not found\n", file, []⟩

/-- Status classes of the spec's error taxonomy: a client error in HTTP is
a 4xx status.  Stated from the spec's words, for comparison with the
status the code actually produces. -/
def specClientErrorStatus (n : Nat) : Bool :=
  400 ≤ n && n < 500

theorem postLoop_eq (logs : List String) :
    postLoop logs = (logs.map fun l => Ev.pub (addNewline l), concatAll logs) := by
  induction logs with
  | nil => rfl
  | cons l rest ih => simp [postLoop, concatAll, ih]

theorem execPostLog_ok (logs : List String) (file : String) :
    execPostLog (.ok logs) file =
      .ok (file ++ concatAll logs,
           (logs.map fun l => Ev.pub (addNewline l)) ++ [Ev.append (concatAll logs)]) := by
  simp [execPostLog, postLoop_eq]

theorem lor_eq_zero_iff (a b : Nat) : a ||| b = 0 ↔ a = 0 ∧ b = 0 := by
  constructor
  · intro h
    constructor
    · exact Nat.eq_of_testBit_eq fun i => by
        have := congrArg (fun n => Nat.testBit n i) h
        simp [Nat.testBit_or] at this
        simp [this.1]
    · exact Nat.eq_of_testBit_eq fun i => by
        have := congrArg (fun n => Nat.testBit n i) h
        simp [Nat.testBit_or] at this
        simp [this.2]
  · rintro ⟨rfl, rfl⟩
    rfl

theorem ctAux_snd (x y : List Nat) (v : Nat) :
    (ctAux x y v).2 = min x.length y.length := by
  induction x generalizing y v with
  | nil => simp [ctAux]
  | cons a as ih =>
    cases y with
    | nil => simp [ctAux]
    | cons b bs =>
      simp [ctAux, ih, Nat.succ_min_succ]

theorem ctAux_fst_zero_iff (x y : List Nat) (v : Nat) (h : x.length = y.length) :
    (ctAux x y v).1 = 0 ↔ (v = 0 ∧ x = y) := by
  induction x generalizing y v with
  | nil =>
    cases y with
    | nil => simp [ctAux]
    | cons b bs => simp at h
  | cons a as ih =>
    cases y with
    | nil => simp at h
    | cons b bs =>
      simp only [List.length_cons, Nat.succ.injEq] at h
      simp only [ctAux, ih _ _ h, lor_eq_zero_iff, List.cons.injEq]
      constructor
      · rintro ⟨⟨hv, hx⟩, hrest⟩
        exact ⟨hv, Nat.xor_eq_zero.mp hx, hrest⟩
      · rintro ⟨hv, hab, hrest⟩
        subst hab
        simp [hv, hrest]

theorem ctAux_fst_lt (x y : List Nat) (v : Nat)
    (hx : ∀ a ∈ x, a < 256) (hy : ∀ b ∈ y, b < 256) (hv : v < 256) :
    (ctAux x y v).1 < 256 := by
  induction x generalizing y v with
  | nil => simpa [ctAux] using hv
  | cons a as ih =>
    cases y with
    | nil => simpa [ctAux] using hv
    | cons b bs =>
      simp only [ctAux]
      refine ih _ _ (fun a ha => hx a (List.mem_cons_of_mem _ ha))
        (fun c hc => hy c (List.mem_cons_of_mem _ hc)) ?_
      have ha : a < 256 := hx a (List.mem_cons_self a as)
      have hb : b < 256 := hy b (List.mem_cons_self b bs)
      have hxor : a ^^^ b < 256 := Nat.xor_lt_two_pow (n := 8) ha hb
      exact Nat.or_lt_two_pow (n := 8) hv hxor

theorem constantTimeByteEq_eq_one_iff (v : Nat) (hv : v < 256) :
    constantTimeByteEq v 0 = 1 ↔ v = 0 := by
  unfold constantTimeByteEq
  rcases Nat.eq_zero_or_pos v with h0 | hpos
  · subst h0
    simp
  · have hne : ¬ (v = 0) := Nat.pos_iff_ne_zero.mp hpos
    simp only [hne, iff_false]
    have hxor : v ^^^ 0 = v := Nat.xor_zero v
    rw [hxor]
    have hmod : (v + (2 ^ 32 - 1)) % 2 ^ 32 = v - 1 := by omega
    rw [hmod, Nat.shiftRight_eq_div_pow]
    omega

theorem constantTimeCompare_eq_one_iff (x y : List Nat)
    (hx : ∀ a ∈ x, a < 256) (hy : ∀ b ∈ y, b < 256) :
    constantTimeCompare x y = 1 ↔ x = y := by
  unfold constantTimeCompare
  by_cases h : x.length = y.length
  · simp only [h, if_true]
    rw [constantTimeByteEq_eq_one_iff _ (ctAux_fst_lt x y 0 hx hy (by omega))]
    rw [ctAux_fst_zero_iff x y 0 h]
    simp
  · simp only [h, if_false]
    constructor
    · intro hc; omega
    · intro he; subst he; simp at h

theorem ctcSteps_eq (x y : List Nat) :
    ctcSteps x y = if x.length = y.length then x.length else 0 := by
  unfold ctcSteps
  by_cases h : x.length = y.length
  · simp [h, ctAux_snd]
  · simp [h]

theorem constantTimeCompare_self (k : List Nat) : constantTimeCompare k k = 1 := by
  unfold constantTimeCompare
  simp only [if_true]
  have h0 : (ctAux k k 0).1 = 0 := (ctAux_fst_zero_iff k k 0 rfl).mpr ⟨rfl, rfl⟩
  rw [h0]
  rfl

/-- C1: in the logfile revision of `execPostLog` the data written to the
active file is the raw concatenation of the decoded lines: the trailing
newline the spec requires (and which both the earlier revision of
`execPostLog` and the targets revision at service.go:70-102 add) is only
applied on the broadcast path.  Submitting the batch `["a"]` appends the
single-write buffer `"a"`, not `"a\n"`. -/
theorem execPostLog_drops_newline :
    (postLog (.ok ["a"]) "").file = "a" ∧
    (postLog (.ok ["a"]) "").trace.filter Ev.isAppend = [Ev.append "a"] ∧
    addNewline "a" = "a\n" ∧
    ("a" : String) ≠ "a\n" := by
  refine ⟨rfl, rfl, by decide, by decide⟩

/-- C2 counterexample: for the decoded batch `["a"]` the event trace of
`execPostLog` is publish-then-append, so the durable append does not
precede the live publish. -/
theorem publish_precedes_append_cex :
    (postLog (.ok ["a"]) "").trace = [Ev.pub "a\n", Ev.append "a"] ∧
    ¬ ((postLog (.ok ["a"]) "").trace.findIdx Ev.isAppend <
       (postLog (.ok ["a"]) "").trace.findIdx Ev.isPub) := by
  constructor
  · decide
  · decide

/-- C2 amended: for every successfully decoded batch, each line is
published to the tail listeners first, in submission order, and the single
durable append of the concatenated batch happens after all publishes. -/
theorem publish_then_append (logs : List String) (file : String) :
    (postLog (.ok logs) file).trace =
      (logs.map fun l => Ev.pub (addNewline l)) ++ [Ev.append (concatAll logs)] := by
  simp [postLog, execPostLog_ok]

/-- C3 counterexample: a body that fails to decode is answered with
status 500 (Internal Server Error), which is not a 4xx client-error
status. -/
theorem decode_failure_status_cex :
    serveLog [1] [1] .post (.error "invalid character") "f" =
      some ⟨500, "decode body: invalid character\n", "f", []⟩ ∧
    specClientErrorStatus 500 = false := by
  constructor
  · decide
  · decide

/-- C3 amended: for every request with a valid credential whose body fails
to decode, the server answers status 500 with the wrapped decode error,
the active log file is untouched and nothing is delivered to any
subscriber. -/
theorem decode_failure_no_mutation (k : List Nat) (e file : String) :
    serveLog k k .post (.error e) file =
      some ⟨500, "decode body: " ++ e ++ "\n", file, []⟩ := by
  simp [serveLog, constantTimeCompare_self, postLog, execPostLog]

/-- C4: a request whose `X-API-Key` bytes differ from the configured key
is answered by `http.NotFound` (status 404, not 401) with no effect on
the file or the listeners, and the credential comparison's operation
count depends only on the submitted key's length, never on how many
prefix bytes match. -/
theorem isLoggedIn_notFound_and_constant_time
    (apiKey key : List Nat) (method : Method)
    (dec : Except String (List String)) (file : String)
    (hK : ∀ a ∈ apiKey, a < 256) (hk : ∀ b ∈ key, b < 256)
    (hne : key ≠ apiKey) :
    serveLog apiKey key method dec file =
      some ⟨404, "404 page not found\n", file, []⟩ ∧
    (∀ k1 k2 : List Nat, k1.length = k2.length →
      ctcSteps apiKey k1 = ctcSteps apiKey k2) := by
  constructor
  · have hcc : constantTimeCompare apiKey key ≠ 1 := fun h =>
      hne ((constantTimeCompare_eq_one_iff apiKey key hK hk).mp h).symm
    simp [serveLog, hcc]
  · intro k1 k2 hlen
    rw [ctcSteps_eq, ctcSteps_eq, hlen]

/-- Witness for C4 at a concrete wrong key. -/
theorem isLoggedIn_notFound_and_constant_time_witness :
    serveLog [1, 2] [1, 3] .post (.ok ["x"]) "f" =
      some ⟨404, "404 page not found\n", "f", []⟩ ∧
    (∀ k1 k2 : List Nat, k1.length = k2.length →
      ctcSteps [1, 2] k1 = ctcSteps [1, 2] k2) :=
  isLoggedIn_notFound_and_constant_time [1, 2] [1, 3] .post (.ok ["x"]) "f"
    (by decide) (by decide) (by decide)

/-- C10: a `POST /log` with a valid credential and the empty batch `[]`
succeeds with 200 `OK`, leaves the active file unchanged (the single
write appends the empty buffer) and publishes nothing to any
subscriber. -/
theorem post_empty_batch_noop (k : List Nat) (file : String) :
    serveLog k k .post (.ok []) file = some ⟨200, "OK", file, [Ev.append ""]⟩ ∧
    [Ev.append ""].filter Ev.isPub = [] := by
  constructor
  · simp [serveLog, constantTimeCompare_self, postLog, execPostLog, postLoop]
  · rfl

/-- Outcome of one `HTTPClient.Do` call made by the delivery client: a
transport (network) error, or a response with the given status code. -/
inductive DoOutcome where
  | netErr (msg : String)
  | resp (status : Nat)
deriving DecidableEq, Repr

/-- Observable result of one `Client.flush` call: the buffer afterwards,
the batch the server acknowledged with 200 (if any), the error sent on
the client's error channel (if any), and how many `Do` calls (transmission
attempts) were made. -/
structure FlushResult where
  buf : List String
  delivered : Option (List String)
  errSent : Option String
  attempts : Nat
deriving DecidableEq, Repr

/-- Embedding of `Client.flush` (client.go).  Under the mutex,
`marshalBuffer` swaps the buffer for an empty one (so the captured batch
is gone from the buffer whatever happens next) and reports nil for an
empty buffer, in which case no request is made.  Otherwise exactly one
`Do` call transmits the batch: a network error or a non-200 status sends
one error through `sendErr` — which forwards to the error channel only
when `Err()` was called (`errCh` non-nil) and silently drops the error
otherwise — and the batch is never retransmitted. -/
def clientFlush (buf : List String) (hasErrCh : Bool) (outcome : DoOutcome) :
    FlushResult :=
  match buf with
  | [] => ⟨[], none, none, 0⟩
  | batch =>
    match outcome with
    | .netErr m => ⟨[], none, if hasErrCh then some ("do: " ++ m) else none, 1⟩
    | .resp s =>
      if s ≠ 200 then
        ⟨[], none,
         if hasErrCh then some ("expected 200, got " ++ toString s) else none, 1⟩
      else ⟨[], some batch, none, 1⟩

/-- Runs `clientFlush` against a scripted server: the flush consumes at
most the first entry of `responses` (one `Do` call), and the rest of the
script is returned unused. -/
def clientFlushWithServer (buf : List String) (hasErrCh : Bool)
    (responses : List DoOutcome) : FlushResult × List DoOutcome :=
  match buf, responses with
  | [], rest => (⟨[], none, none, 0⟩, rest)
  | _ :: _, [] => (⟨[], none, if hasErrCh then some "do: no response" else none, 1⟩, [])
  | batch, o :: rest => (clientFlush batch hasErrCh o, rest)

/-- C7: against a server scripted to fail twice and then succeed, a flush
of the batch `["x"]` makes exactly one attempt, delivers nothing, drops
the batch from the buffer and reports the loss on the error channel; the
two remaining scripted outcomes (including the success) are never
requested.  The claimed three-attempt retry with backoff does not exist
in `Client.flush`. -/
theorem flush_no_retry_cex :
    clientFlushWithServer ["x"] true
        [.netErr "connection refused", .netErr "connection refused", .resp 200] =
      (⟨[], none, some "do: connection refused", 1⟩,
       [.netErr "connection refused", .resp 200]) ∧
    (1 : Nat) ≠ 3 := by
  constructor
  · rfl
  · decide

/-- Helper for C7: every flush makes at most one transmission attempt,
whatever the buffer and the server outcome. -/
theorem clientFlush_attempts_le_one (buf : List String) (h : Bool)
    (o : DoOutcome) : (clientFlush buf h o).attempts ≤ 1 := by
  match buf with
  | [] => simp [clientFlush]
  | b :: bs =>
    match o with
    | .netErr m => simp [clientFlush]
    | .resp s =>
      simp only [clientFlush]
      split <;> simp

/-- A listener entry of `logChans` (log_chans.go): its id, its `open` flag
(set by `getLog` once the streaming goroutine is started, never reset),
and whether a receiver is currently blocked on its unbuffered channel
(the `streamLogs` goroutine waiting in `for l := range lc.ch`); an
unbuffered channel send completes only when such a receiver is ready. -/
structure LogChanM where
  id : Nat
  isOpen : Bool
  receiverReady : Bool
deriving DecidableEq, Repr

/-- Result of one `logChans.Send` call: the ids that received the line
before the call either finished or blocked, the id of the open listener
whose unavailable receiver blocks the send (if any), and the listener
table afterwards.  Go map iteration order is unspecified; the list order
stands in for one such order — whether the send blocks does not depend
on it. -/
structure SendResult where
  line : String
  delivered : List Nat
  blockedOn : Option Nat
  table : List LogChanM
deriving DecidableEq, Repr

/-- The iteration of `logChans.Send` over the listener table: a closed
entry is skipped; an open entry with a ready receiver gets the line; an
open entry with no ready receiver blocks the send right there (`lc.ch <- s`
on an unbuffered channel with no receiver), so nothing further is
delivered and the loop never finishes. -/
def sendAux : List LogChanM → List Nat × Option Nat
  | [] => ([], none)
  | c :: rest =>
    if c.isOpen then
      if c.receiverReady then
        let p := sendAux rest
        (c.id :: p.1, p.2)
      else ([], some c.id)
    else sendAux rest

/-- Embedding of `logChans.Send` (log_chans.go:22-31): the line gets a
trailing newline if missing, then is sent to every open listener's
channel in turn.  The table itself is never modified: `Send` contains no
drop or unsubscribe logic — entries are removed only by `logChans.Delete`,
which `getLog` defers until its own connection handling returns. -/
def logChansSend (chans : List LogChanM) (s : String) : SendResult :=
  let p := sendAux chans
  ⟨addNewline s, p.1, p.2, chans⟩

/-- C8 counterexample: a single open subscriber whose receiver is not
ready (its delivery queue — an unbuffered channel — is saturated) makes
`Send` block, and the subscriber is still in the table: it is not
dropped, and ingestion stalls on it. -/
theorem send_blocks_no_drop_cex :
    logChansSend [⟨1, true, false⟩] "a" =
      ⟨"a\n", [], some 1, [⟨1, true, false⟩]⟩ := by
  rfl

/-- C8 amended: `Send` leaves the subscriber table unchanged in every
case, and it blocks exactly when some open subscriber has no ready
receiver; a saturated subscriber therefore stalls ingestion instead of
being dropped.  Removal from the table happens only through
`logChans.Delete`, invoked by the tail handler when its own connection
terminates. -/
theorem send_table_unchanged_blocks_iff (chans : List LogChanM) (s : String) :
    (logChansSend chans s).table = chans ∧
    ((logChansSend chans s).blockedOn.isSome ↔
      ∃ c ∈ chans, c.isOpen = true ∧ c.receiverReady = false) := by
  refine ⟨rfl, ?_⟩
  show (sendAux chans).2.isSome ↔ _
  induction chans with
  | nil => simp [sendAux]
  | cons c rest ih =>
    by_cases ho : c.isOpen
    · by_cases hr : c.receiverReady
      · rw [show sendAux (c :: rest) = (c.id :: (sendAux rest).1, (sendAux rest).2) by
          simp [sendAux, ho, hr]]
        rw [ih]
        constructor
        · rintro ⟨x, hx, hxo, hxr⟩
          exact ⟨x, List.mem_cons_of_mem _ hx, hxo, hxr⟩
        · rintro ⟨x, hx, hxo, hxr⟩
          rcases List.mem_cons.mp hx with h | h
          · subst h; rw [hxr] at hr; exact Bool.noConfusion hr
          · exact ⟨x, h, hxo, hxr⟩
      · rw [show sendAux (c :: rest) = ([], some c.id) by simp [sendAux, ho, hr]]
        simp only [Option.isSome_some, true_iff]
        exact ⟨c, List.mem_cons_self c rest, ho, Bool.eq_false_iff.mpr hr⟩
    · rw [show sendAux (c :: rest) = sendAux rest by simp [sendAux, ho]]
      rw [ih]
      constructor
      · rintro ⟨x, hx, hxo, hxr⟩
        exact ⟨x, List.mem_cons_of_mem _ hx, hxo, hxr⟩
      · rintro ⟨x, hx, hxo, hxr⟩
        rcases List.mem_cons.mp hx with h | h
        · subst h; exact absurd hxo ho
        · exact ⟨x, h, hxo, hxr⟩

/-- Gregorian leap-year rule, as implemented by Go's `time` package. -/
def isLeap (y : Nat) : Bool :=
  y % 4 == 0 && (y % 100 != 0 || y % 400 == 0)

/-- Length of month `m` of year `y`; zero for an out-of-range month. -/
def daysInMonth (y : Nat) : Nat → Nat
  | 1 => 31
  | 2 => if isLeap y then 29 else 28
  | 3 => 31
  | 4 => 30
  | 5 => 31
  | 6 => 30
  | 7 => 31
  | 8 => 31
  | 9 => 30
  | 10 => 31
  | 11 => 30
  | 12 => 31
  | _ => 0

/-- Days of year `y` that lie strictly before month `m`. -/
def daysBeforeMonth (y : Nat) : Nat → Nat
  | 0 => 0
  | m + 1 => daysBeforeMonth y m + daysInMonth y m

/-- Number of leap years in `[0, y)` (year 0 of the proleptic Gregorian
calendar is a leap year). -/
def leapsBefore (y : Nat) : Nat :=
  (y + 3) / 4 - (y + 99) / 100 + (y + 399) / 400

/-- A calendar date as encoded in a `YYYYMMDD` log-file name. -/
structure Date where
  y : Nat
  m : Nat
  d : Nat
deriving DecidableEq, Repr

/-- Day count of a date from 0000-01-01 of the proleptic Gregorian
calendar (the calendar Go's `time.Parse` uses, in UTC). -/
def rataDie (dt : Date) : Nat :=
  365 * dt.y + leapsBefore dt.y + daysBeforeMonth dt.y dt.m + (dt.d - 1)

/-- The midnight-UTC timestamp of a date, in seconds.  All times in this
development are integer seconds on this axis. -/
def dateSec (dt : Date) : Int :=
  86400 * (rataDie dt : Int)

/-- The range checks `time.Parse` applies to a `20060102` input: month
1-12, day 1 through the month's length, and a four-digit year. -/
def validDate (dt : Date) : Bool :=
  1 ≤ dt.m && dt.m ≤ 12 && 1 ≤ dt.d && dt.d ≤ daysInMonth dt.y dt.m && dt.y ≤ 9999

/-- The numeral `YYYYMMDD` a date prints as; this is what
`sortFilesByTimestamp` compares. -/
def dateKey (dt : Date) : Nat :=
  dt.y * 10000 + dt.m * 100 + dt.d

def digitVal (c : Char) : Nat := c.toNat - 48

def natOfDigits (cs : List Char) : Nat :=
  cs.foldl (fun acc c => acc * 10 + digitVal c) 0

/-- Embedding of `time.Parse("20060102", s)`: exactly eight digits,
split 4-2-2, accepted only when the ranges check out. -/
def parseDate? (s : String) : Option Date :=
  match s.data with
  | [a, b, c, d, e, f, g, h] =>
    if a.isDigit && b.isDigit && c.isDigit && d.isDigit &&
       e.isDigit && f.isDigit && g.isDigit && h.isDigit then
      let dt : Date := ⟨natOfDigits [a, b, c, d], natOfDigits [e, f], natOfDigits [g, h]⟩
      if validDate dt then some dt else none
    else none
  | _ => none

/-- The reversed extension of a reversed character list: everything from
the last `'.'` (inclusive) to the end of the original string, or nothing
when there is no dot.  This is `filepath.Ext` for a plain file name. -/
def extRev : List Char → List Char
  | [] => []
  | c :: rest =>
    if c = '.' then [c]
    else
      match extRev rest with
      | [] => []
      | e => c :: e

/-- Go's `filepath.Ext` restricted to bare file names (no separators). -/
def fileExt (s : String) : String :=
  ⟨(extRev s.data.reverse).reverse⟩

/-- `strings.TrimSuffix(name, filepath.Ext(name))`: the extension is a
suffix of the name, so trimming drops exactly its characters. -/
def fileStem (s : String) : String :=
  ⟨s.data.take (s.data.length - (fileExt s).data.length)⟩

/-- Embedding of `getFilesInDir`: the directory listing is a list of
plain file names (directories are outside the model); hidden files
(leading dot) are skipped, as is anything whose extension differs from
the requested one (dotted if given without the dot). -/
def getFilesInDir (names : List String) (extension : String) : List String :=
  names.filter fun n =>
    !(n.data.head? = some '.') &&
      fileExt n == (if extension.data.head? = some '.' then extension
                    else "." ++ extension)

/-- The maximal leading digit run of a file name: the match of the
`^\d+` regular expression in `sortFilesByTimestamp`. -/
def leadingDigits (s : String) : List Char :=
  s.data.takeWhile Char.isDigit

/-- Go's `strconv.ParseUint(s, 10, 64)` on a digit run: the empty match
and any value at or above `2^64` are errors. -/
def parseUint64? (cs : List Char) : Option Nat :=
  if cs.isEmpty then none
  else if natOfDigits cs < 2 ^ 64 then some (natOfDigits cs) else none

/-- The sort key `sortFilesByTimestamp` extracts from a file name. -/
def fileKey (s : String) : Option Nat :=
  parseUint64? (leadingDigits s)

def fileKeyD (s : String) : Nat := (fileKey s).getD 0

def fileKeyLE (a b : String) : Prop := fileKeyD a ≤ fileKeyD b

instance : DecidableRel fileKeyLE :=
  fun a b => inferInstanceAs (Decidable (fileKeyD a ≤ fileKeyD b))

instance : IsTotal String fileKeyLE :=
  ⟨fun a b => Nat.le_total (fileKeyD a) (fileKeyD b)⟩

instance : IsTrans String fileKeyLE :=
  ⟨fun _ _ _ => Nat.le_trans⟩

/-- Embedding of `sortFilesByTimestamp`: sorts ascending by the numeric
value of each name's leading digits.  The comparator parses both sides on
every call and records the first failure in `errOut`; with `sort.Slice`'s
comparator-call pattern every element of a list of length at least two
takes part in some comparison before completion, so an unparseable name
in such a list yields an error, while a singleton (or empty) list is
never compared and cannot fail.  Tie order between equal keys is
unspecified by `sort.Slice`; insertion sort stands in for one admissible
order. -/
def sortFilesByTimestamp (files : List String) : Except String (List String) :=
  if 2 ≤ files.length && files.any fun f => (fileKey f).isNone then
    .error "parse uint in file"
  else
    .ok (List.insertionSort fileKeyLE files)

/-- The deletion loop of `deleteOldFiles` over the sorted names: parse
the date out of each stem (a failure aborts the pass with an error), stop
at the first name dated strictly after the cutoff (`ti.After(cutoff)`),
delete otherwise and continue.  `os.Remove` is assumed to succeed.
Returns the deleted names in order and the error, if any. -/
def delScan (cutoff : Int) : List String → List String × Option String
  | [] => ([], none)
  | f :: rest =>
    match parseDate? (fileStem f) with
    | none => ([], some ("invalid time " ++ fileStem f))
    | some dt =>
      if cutoff < dateSec dt then ([], none)
      else
        let p := delScan cutoff rest
        (f :: p.1, p.2)

/-- Embedding of one retention pass `deleteOldFiles(dur)` evaluated when
`time.Now()` is `nowSec`: list the `.log` files, sort them by leading
number, scan from the oldest with cutoff `now - dur`. -/
def deleteOldFiles (names : List String) (nowSec dur : Int) :
    List String × Option String :=
  match sortFilesByTimestamp (getFilesInDir names ".log") with
  | .error e => ([], some e)
  | .ok sorted => delScan (nowSec - dur) sorted

/-- Zero-padded decimal of width `w`, as Go's `Format("20060102")`
produces for each component. -/
def fmtNat (w n : Nat) : String :=
  let s := toString n
  ⟨List.replicate (w - s.length) '0'⟩ ++ s

def fmtDate (dt : Date) : String :=
  fmtNat 4 dt.y ++ fmtNat 2 dt.m ++ fmtNat 2 dt.d

/-- The active log file of `logfile.go`: its name (relative to the store
directory), its `created` timestamp, and whether `Close` has been called
on its handle. -/
structure Logfile where
  name : String
  created : Int
  closed : Bool
deriving DecidableEq, Repr

/-- Embedding of `sls.NewLogfile` called when `time.Now()` falls on the
day `today`: the sub-day part is truncated, the file is named
`YYYYMMDD.log` from the truncated date and `created` is set to that
midnight. -/
def NewLogfile (today : Date) : Logfile :=
  ⟨fmtDate today ++ ".log", dateSec today, false⟩

/-- Go's `Logfile.Old`: `created.Before(now.Add(-24h))`, i.e. strictly
more than 24 hours between `created` and `now`. -/
def Logfile.Old (lf : Logfile) (nowSec : Int) : Bool :=
  decide (lf.created < nowSec - 86400)

/-- Result of `rotateLogfile`: the active file afterwards and, when a
rotation occurred, the previous `Logfile` exactly as it was left (the
code calls `sls.NewLogfile` and overwrites `srv.logfile` without calling
`Close` on the old handle, so its `closed` flag is untouched). -/
structure RotateResult where
  active : Logfile
  replaced : Option Logfile
deriving DecidableEq, Repr

/-- Embedding of `rotateLogfile` evaluated when `time.Now()` is
`secOfDay` seconds into the day `today`: no-op unless the active file is
`Old`, otherwise swap in a fresh `NewLogfile` for today. -/
def rotateLogfile (lf : Logfile) (today : Date) (secOfDay : Nat) : RotateResult :=
  if lf.Old (dateSec today + secOfDay) then ⟨NewLogfile today, some lf⟩
  else ⟨lf, none⟩

theorem daysInMonth_pos (y : Nat) {m : Nat} (h1 : 1 ≤ m) (h2 : m ≤ 12) :
    1 ≤ daysInMonth y m := by
  interval_cases m <;> simp [daysInMonth] <;> split <;> omega

theorem daysInMonth_le_31 (y : Nat) {m : Nat} (h1 : 1 ≤ m) (h2 : m ≤ 12) :
    daysInMonth y m ≤ 31 := by
  interval_cases m <;> simp [daysInMonth] <;> split <;> omega

theorem daysBeforeMonth_mono (y : Nat) {a b : Nat} (h : a ≤ b) :
    daysBeforeMonth y a ≤ daysBeforeMonth y b := by
  induction h with
  | refl => exact Nat.le_refl _
  | step _ ih => exact Nat.le_trans ih (Nat.le_add_right _ _)

theorem daysBeforeMonth_13 (y : Nat) :
    daysBeforeMonth y 13 = 365 + (if isLeap y then 1 else 0) := by
  cases h : isLeap y <;> simp [daysBeforeMonth, daysInMonth, h]

theorem dayOfYear_le (y : Nat) {m d : Nat} (h1 : 1 ≤ m) (h2 : m ≤ 12)
    (hd : d ≤ daysInMonth y m) :
    daysBeforeMonth y m + d ≤ 365 + (if isLeap y then 1 else 0) := by
  have h3 : daysBeforeMonth y m + d ≤ daysBeforeMonth y (m + 1) := by
    rw [daysBeforeMonth]
    omega
  have h4 : daysBeforeMonth y (m + 1) ≤ daysBeforeMonth y 13 :=
    daysBeforeMonth_mono y (by omega)
  rw [daysBeforeMonth_13] at h4
  omega

theorem isLeap_iff (y : Nat) :
    isLeap y = true ↔ (y % 4 = 0 ∧ (y % 100 ≠ 0 ∨ y % 400 = 0)) := by
  unfold isLeap
  simp [Bool.and_eq_true, Bool.or_eq_true, beq_iff_eq, bne_iff_ne]

set_option maxHeartbeats 1000000 in
theorem leapsBefore_succ (y : Nat) :
    leapsBefore (y + 1) = leapsBefore y + (if isLeap y then 1 else 0) := by
  by_cases h : isLeap y = true
  · rw [if_pos h]
    have hp := (isLeap_iff y).mp h
    unfold leapsBefore
    omega
  · rw [if_neg h]
    have hp : ¬(y % 4 = 0 ∧ (y % 100 ≠ 0 ∨ y % 400 = 0)) := fun hc =>
      h ((isLeap_iff y).mpr hc)
    unfold leapsBefore
    omega

theorem leapsBefore_mono {a b : Nat} (h : a ≤ b) :
    leapsBefore a ≤ leapsBefore b := by
  induction h with
  | refl => exact Nat.le_refl _
  | step _ ih =>
    refine Nat.le_trans ih ?_
    rw [leapsBefore_succ]
    split <;> omega

theorem validDate_bounds {dt : Date} (h : validDate dt = true) :
    1 ≤ dt.m ∧ dt.m ≤ 12 ∧ 1 ≤ dt.d ∧ dt.d ≤ daysInMonth dt.y dt.m ∧ dt.y ≤ 9999 := by
  simp only [validDate, Bool.and_eq_true, decide_eq_true_eq] at h
  tauto

theorem rataDie_lt_of_dateKey_lt {dt1 dt2 : Date} (h1 : validDate dt1 = true)
    (h2 : validDate dt2 = true) (hk : dateKey dt1 < dateKey dt2) :
    rataDie dt1 < rataDie dt2 := by
  obtain ⟨m1p, m1le, d1p, d1le, _⟩ := validDate_bounds h1
  obtain ⟨m2p, m2le, d2p, d2le, _⟩ := validDate_bounds h2
  have d1le31 : dt1.d ≤ 31 := Nat.le_trans d1le (daysInMonth_le_31 _ m1p m1le)
  have d2le31 : dt2.d ≤ 31 := Nat.le_trans d2le (daysInMonth_le_31 _ m2p m2le)
  have hcase : dt1.y < dt2.y ∨ (dt1.y = dt2.y ∧ dt1.m < dt2.m) ∨
      (dt1.y = dt2.y ∧ dt1.m = dt2.m ∧ dt1.d < dt2.d) := by
    unfold dateKey at hk
    omega
  rcases hcase with hy | ⟨hy, hm⟩ | ⟨hy, hm, hd⟩
  · have hdoy : daysBeforeMonth dt1.y dt1.m + dt1.d ≤ 365 + (if isLeap dt1.y then 1 else 0) :=
      dayOfYear_le _ m1p m1le d1le
    have hls : leapsBefore (dt1.y + 1) = leapsBefore dt1.y + (if isLeap dt1.y then 1 else 0) :=
      leapsBefore_succ dt1.y
    have hlm : leapsBefore (dt1.y + 1) ≤ leapsBefore dt2.y := leapsBefore_mono (by omega)
    unfold rataDie
    cases hbit : isLeap dt1.y <;> rw [hbit] at hdoy hls <;> simp at hdoy hls <;> omega
  · have hstep : daysBeforeMonth dt1.y (dt1.m + 1) =
        daysBeforeMonth dt1.y dt1.m + daysInMonth dt1.y dt1.m := by
      rw [daysBeforeMonth]
    have hmono : daysBeforeMonth dt1.y (dt1.m + 1) ≤ daysBeforeMonth dt1.y dt2.m :=
      daysBeforeMonth_mono _ (by omega)
    unfold rataDie
    rw [← hy]
    omega
  · unfold rataDie
    rw [← hy, ← hm]
    omega

theorem rataDie_le_of_dateKey_le {dt1 dt2 : Date} (h1 : validDate dt1 = true)
    (h2 : validDate dt2 = true) (hk : dateKey dt1 ≤ dateKey dt2) :
    rataDie dt1 ≤ rataDie dt2 := by
  rcases Nat.lt_or_ge (dateKey dt1) (dateKey dt2) with hlt | hge
  · exact Nat.le_of_lt (rataDie_lt_of_dateKey_lt h1 h2 hlt)
  · obtain ⟨m1p, m1le, d1p, d1le, _⟩ := validDate_bounds h1
    obtain ⟨m2p, m2le, d2p, d2le, _⟩ := validDate_bounds h2
    have d1le31 : dt1.d ≤ 31 := Nat.le_trans d1le (daysInMonth_le_31 _ m1p m1le)
    have d2le31 : dt2.d ≤ 31 := Nat.le_trans d2le (daysInMonth_le_31 _ m2p m2le)
    have heq : dt1 = dt2 := by
      obtain ⟨y1, m1, d1⟩ := dt1
      obtain ⟨y2, m2, d2⟩ := dt2
      simp only [dateKey] at hk hge
      simp only at m1p m1le d1p d1le31 m2p m2le d2p d2le31
      have : y1 = y2 ∧ m1 = m2 ∧ d1 = d2 := by omega
      simp [this.1, this.2.1, this.2.2]
    rw [heq]

theorem dateSec_le_of_dateKey_le {dt1 dt2 : Date} (h1 : validDate dt1 = true)
    (h2 : validDate dt2 = true) (hk : dateKey dt1 ≤ dateKey dt2) :
    dateSec dt1 ≤ dateSec dt2 := by
  have := rataDie_le_of_dateKey_le h1 h2 hk
  unfold dateSec
  omega

/-- A name whose stem parses as a valid date, whose leading digits are
exactly that date's `YYYYMMDD` numeral, that is not hidden and carries
the `.log` extension — the shape of every name the rotation scheme
produces. -/
def goodLogName (f : String) : Bool :=
  match parseDate? (fileStem f) with
  | some dt =>
    (fileKey f == some (dateKey dt)) && !(f.data.head? = some '.') &&
      (fileExt f == ".log")
  | none => false

/-- A file is dated on or before the cutoff: the deletion condition the
retention scan actually implements (`!ti.After(cutoff)`). -/
def fileOldEnough (cutoff : Int) (f : String) : Bool :=
  match parseDate? (fileStem f) with
  | some dt => decide (dateSec dt ≤ cutoff)
  | none => false

theorem parseDate?_valid {s : String} {dt : Date} (h : parseDate? s = some dt) :
    validDate dt = true := by
  unfold parseDate? at h
  split at h
  · dsimp only at h
    split_ifs at h with hdig hval
    · injection h with h'
      rw [← h']
      exact hval
  · exact absurd h (by simp)

theorem goodLogName_spec {f : String} (h : goodLogName f = true) :
    ∃ dt, parseDate? (fileStem f) = some dt ∧ validDate dt = true ∧
      fileKey f = some (dateKey dt) ∧ ¬(f.data.head? = some '.') ∧
      fileExt f = ".log" := by
  unfold goodLogName at h
  split at h
  next dt heq =>
    simp only [Bool.and_eq_true, beq_iff_eq, Bool.not_eq_true',
      decide_eq_false_iff_not] at h
    exact ⟨dt, heq, parseDate?_valid heq, h.1.1, h.1.2, h.2⟩
  next => exact absurd h (by simp)

theorem getFilesInDir_all_good {names : List String}
    (h : ∀ f ∈ names, goodLogName f = true) :
    getFilesInDir names ".log" = names := by
  unfold getFilesInDir
  rw [List.filter_eq_self]
  intro f hf
  obtain ⟨dt, hp, hv, hk, hh, he⟩ := goodLogName_spec (h f hf)
  have hif : (if (".log" : String).data.head? = some '.' then (".log" : String)
      else "." ++ ".log") = ".log" := rfl
  rw [hif]
  simp [hh, he]

theorem delScan_cons (cutoff : Int) (f : String) (rest : List String) :
    delScan cutoff (f :: rest) =
      match parseDate? (fileStem f) with
      | none => ([], some ("invalid time " ++ fileStem f))
      | some dt =>
        if cutoff < dateSec dt then ([], none)
        else (f :: (delScan cutoff rest).1, (delScan cutoff rest).2) := by
  rfl

theorem delScan_all_good {cutoff : Int} {l : List String}
    (hg : ∀ f ∈ l, goodLogName f = true)
    (hs : List.Sorted fileKeyLE l) :
    delScan cutoff l = (l.filter (fileOldEnough cutoff), none) := by
  induction l with
  | nil => simp [delScan]
  | cons f rest ih =>
    obtain ⟨dt, hp, hv, hk, -, -⟩ := goodLogName_spec (hg f (List.mem_cons_self f rest))
    have hrest : ∀ g ∈ rest, goodLogName g = true := fun g hgm =>
      hg g (List.mem_cons_of_mem _ hgm)
    have hsrest : List.Sorted fileKeyLE rest := hs.of_cons
    have hfle : ∀ g ∈ rest, fileKeyLE f g := List.rel_of_sorted_cons hs
    have hpf : fileOldEnough cutoff f = decide (dateSec dt ≤ cutoff) := by
      unfold fileOldEnough
      rw [hp]
    by_cases hc : cutoff < dateSec dt
    · have hnf : fileOldEnough cutoff f = false := by
        rw [hpf]
        simp only [decide_eq_false_iff_not]
        omega
      have hfilter : rest.filter (fileOldEnough cutoff) = [] := by
        rw [List.filter_eq_nil]
        intro g hgm
        obtain ⟨dtg, hpg, hvg, hkg, -, -⟩ := goodLogName_spec (hrest g hgm)
        have hkle : dateKey dt ≤ dateKey dtg := by
          have hle := hfle g hgm
          unfold fileKeyLE fileKeyD at hle
          rw [hk, hkg] at hle
          simpa using hle
        have hds : dateSec dt ≤ dateSec dtg := dateSec_le_of_dateKey_le hv hvg hkle
        unfold fileOldEnough
        rw [hpg]
        simp only [decide_eq_true_eq]
        omega
      unfold delScan
      rw [hp]
      dsimp only
      rw [if_pos hc]
      simp [List.filter_cons, hnf, hfilter]
    · have hyf : fileOldEnough cutoff f = true := by
        rw [hpf]
        simp only [decide_eq_true_eq]
        omega
      unfold delScan
      rw [hp]
      dsimp only
      rw [if_neg hc, ih hrest hsrest]
      simp [List.filter_cons, hyf]

/-- C5 amended: when every listed name has the `YYYYMMDD.log` shape, the
retention pass reports no error and deletes exactly the files whose
embedded date is on or before `now - horizon` (the code's condition is
`!ti.After(cutoff)`, so a file dated exactly at the cutoff is deleted,
not retained); all strictly newer files survive, the scan stopping at the
first of them. -/
theorem deleteOldFiles_exact (names : List String) (now dur : Int)
    (hg : ∀ f ∈ names, goodLogName f = true) :
    (deleteOldFiles names now dur).2 = none ∧
    ∀ f, f ∈ (deleteOldFiles names now dur).1 ↔
      f ∈ names ∧ fileOldEnough (now - dur) f = true := by
  have hdir : getFilesInDir names ".log" = names := getFilesInDir_all_good hg
  have hany : (names.any fun f => (fileKey f).isNone) = false := by
    rw [List.any_eq_false]
    intro f hf
    obtain ⟨dt, -, -, hk, -, -⟩ := goodLogName_spec (hg f hf)
    simp [hk]
  have hsort : sortFilesByTimestamp names =
      .ok (List.insertionSort fileKeyLE names) := by
    unfold sortFilesByTimestamp
    simp [hany]
  have hperm : (List.insertionSort fileKeyLE names).Perm names :=
    List.perm_insertionSort _ _
  have hgs : ∀ f ∈ List.insertionSort fileKeyLE names, goodLogName f = true :=
    fun f hf => hg f (hperm.mem_iff.mp hf)
  have hsorted : List.Sorted fileKeyLE (List.insertionSort fileKeyLE names) :=
    List.sorted_insertionSort _ _
  unfold deleteOldFiles
  rw [hdir, hsort]
  dsimp only
  rw [delScan_all_good hgs hsorted]
  refine ⟨rfl, fun f => ?_⟩
  dsimp only
  rw [List.mem_filter, hperm.mem_iff]

/-- C5 counterexample: a file whose embedded date falls exactly on the
cutoff `now - horizon` (here: pass evaluated at midnight of 20240103 with
a 2-day horizon, file `20240101.log`) is deleted by the code, while the
claim — delete only files strictly older than the cutoff and halt at the
first file dated on or after it — requires it to be retained. -/
theorem delete_on_cutoff_cex :
    deleteOldFiles ["20240101.log"] (dateSec ⟨2024, 1, 3⟩) (2 * 86400) =
      (["20240101.log"], none) ∧
    ¬ (dateSec ⟨2024, 1, 1⟩ < dateSec ⟨2024, 1, 3⟩ - 2 * 86400) := by
  refine ⟨by decide, by decide⟩

/-- Witness for C5 on the spec's own scenario: horizon 2 days, files
20240101/20240102/20240103, evaluated at 20240103 — no error,
`20240101.log` is deleted and `20240102.log` is kept. -/
theorem deleteOldFiles_exact_witness :
    ((deleteOldFiles ["20240101.log", "20240102.log", "20240103.log"]
        (dateSec ⟨2024, 1, 3⟩) (2 * 86400)).2 = none) ∧
    ("20240101.log" ∈ (deleteOldFiles ["20240101.log", "20240102.log", "20240103.log"]
        (dateSec ⟨2024, 1, 3⟩) (2 * 86400)).1) ∧
    ¬ ("20240102.log" ∈ (deleteOldFiles ["20240101.log", "20240102.log", "20240103.log"]
        (dateSec ⟨2024, 1, 3⟩) (2 * 86400)).1) := by
  have h := deleteOldFiles_exact ["20240101.log", "20240102.log", "20240103.log"]
    (dateSec ⟨2024, 1, 3⟩) (2 * 86400) (by decide)
  refine ⟨h.1, (h.2 "20240101.log").mpr ⟨by decide, by decide⟩, fun hc => ?_⟩
  have hm := (h.2 "20240102.log").mp hc
  exact absurd hm.2 (by decide)

theorem delScan_error_iff (cutoff : Int) (l : List String) :
    (delScan cutoff l).2.isSome = true ↔
      ∃ pre bad post, l = pre ++ bad :: post ∧
        (∀ f ∈ pre, ∃ dt, parseDate? (fileStem f) = some dt ∧ dateSec dt ≤ cutoff) ∧
        parseDate? (fileStem bad) = none := by
  induction l with
  | nil =>
    constructor
    · intro h
      simp [delScan] at h
    · rintro ⟨pre, bad, post, habs, -, -⟩
      exact absurd habs (by cases pre <;> simp)
  | cons f rest ih =>
    cases hp : parseDate? (fileStem f) with
    | none =>
      constructor
      · intro _
        exact ⟨[], f, rest, rfl, by simp, hp⟩
      · intro _
        show (delScan cutoff (f :: rest)).2.isSome = true
        rw [delScan_cons, hp]
        rfl
    | some dt =>
      by_cases hc : cutoff < dateSec dt
      · have hL : (delScan cutoff (f :: rest)).2 = none := by
          rw [delScan_cons, hp]
          dsimp only
          rw [if_pos hc]
        rw [hL]
        constructor
        · intro h
          simp at h
        · rintro ⟨pre, bad, post, habs, hpre, hbad⟩
          cases pre with
          | nil =>
            simp only [List.nil_append, List.cons.injEq] at habs
            rw [habs.1] at hp
            rw [hp] at hbad
            exact absurd hbad (by simp)
          | cons q pre' =>
            simp only [List.cons_append, List.cons.injEq] at habs
            obtain ⟨dtq, hq1, hq2⟩ := hpre q (List.mem_cons_self q pre')
            rw [← habs.1] at hq1
            rw [hp] at hq1
            injection hq1 with hq1'
            rw [← hq1'] at hq2
            omega
      · have hL : (delScan cutoff (f :: rest)).2 = (delScan cutoff rest).2 := by
          rw [delScan_cons, hp]
          dsimp only
          rw [if_neg hc]
        rw [hL, ih]
        constructor
        · rintro ⟨pre, bad, post, h1, h2, h3⟩
          refine ⟨f :: pre, bad, post, by rw [List.cons_append, h1], ?_, h3⟩
          intro g hgm
          rcases List.mem_cons.mp hgm with hgf | hgp
          · exact ⟨dt, by rw [hgf]; exact hp, by omega⟩
          · exact h2 g hgp
        · rintro ⟨pre, bad, post, h1, h2, h3⟩
          cases pre with
          | nil =>
            simp only [List.nil_append, List.cons.injEq] at h1
            rw [h1.1] at hp
            rw [hp] at h3
            exact absurd h3 (by simp)
          | cons q pre' =>
            simp only [List.cons_append, List.cons.injEq] at h1
            exact ⟨pre', bad, post, h1.2,
              fun g hgm => h2 g (List.mem_cons_of_mem _ hgm), h3⟩

/-- C9 amended: provided every listed `.log` name has numeric leading
digits (so the sort comparator succeeds), a retention pass reports an
error precisely when, in ascending key order, a name whose stem does not
parse as a date is reached before any file dated after the cutoff; a
malformed name positioned after the first retained file is never examined
and the pass ends without error. -/
theorem deleteOldFiles_error_iff (names : List String) (now dur : Int)
    (hkeys : ∀ f ∈ getFilesInDir names ".log", (fileKey f).isSome = true) :
    (deleteOldFiles names now dur).2.isSome = true ↔
      ∃ pre bad post,
        List.insertionSort fileKeyLE (getFilesInDir names ".log") =
          pre ++ bad :: post ∧
        (∀ f ∈ pre, ∃ dt, parseDate? (fileStem f) = some dt ∧
          dateSec dt ≤ now - dur) ∧
        parseDate? (fileStem bad) = none := by
  have hany : ((getFilesInDir names ".log").any fun f => (fileKey f).isNone) = false := by
    rw [List.any_eq_false]
    intro f hf
    obtain ⟨k, hk⟩ := Option.isSome_iff_exists.mp (hkeys f hf)
    simp [hk]
  have hsort : sortFilesByTimestamp (getFilesInDir names ".log") =
      .ok (List.insertionSort fileKeyLE (getFilesInDir names ".log")) := by
    unfold sortFilesByTimestamp
    simp [hany]
  unfold deleteOldFiles
  rw [hsort]
  exact delScan_error_iff _ _

/-- Witness for C9 at a malformed singleton: the bad name is first (and
only) in sorted order, so the pass errors. -/
theorem deleteOldFiles_error_iff_witness :
    (deleteOldFiles ["99999999.log"] 0 0).2.isSome = true := by
  have h := deleteOldFiles_error_iff ["99999999.log"] 0 0 (by decide)
  exact h.mpr ⟨[], "99999999.log", [], by decide, by simp, by decide⟩

/-- C9 counterexample: `99999999.log` is a `.log` file whose name does not
parse as a `YYYYMMDD` date (month 99), yet the retention pass over
`[20240105.log, 99999999.log]` with a cutoff before 20240105 stops at
`20240105.log` (dated after the cutoff) and returns no error, without
ever examining the malformed name. -/
theorem retention_misses_bad_name_cex :
    deleteOldFiles ["20240105.log", "99999999.log"] (dateSec ⟨2024, 1, 3⟩) 0 =
      ([], none) ∧
    fileExt "99999999.log" = ".log" ∧
    parseDate? (fileStem "99999999.log") = none := by
  refine ⟨by decide, by decide, by decide⟩

/-- C6 counterexample: for an active file created on 20240101, rotation
evaluated exactly 24 hours later (midnight of 20240102) is a no-op —
`Old` demands strictly more than 24 hours, while the claim rotates at
`now - created >= 24h` — and rotation evaluated 25 hours later does swap
in the new day's file but leaves the replaced handle with `closed =
false`: `rotateLogfile` never calls `Close`, while the claim says the
current handle is closed. -/
theorem rotate_boundary_no_close_cex :
    rotateLogfile (NewLogfile ⟨2024, 1, 1⟩) ⟨2024, 1, 2⟩ 0 =
      ⟨NewLogfile ⟨2024, 1, 1⟩, none⟩ ∧
    dateSec ⟨2024, 1, 2⟩ + ((0 : Nat) : Int) - (NewLogfile ⟨2024, 1, 1⟩).created =
      86400 ∧
    (rotateLogfile (NewLogfile ⟨2024, 1, 1⟩) ⟨2024, 1, 2⟩ 3600).replaced =
      some (NewLogfile ⟨2024, 1, 1⟩) ∧
    (NewLogfile ⟨2024, 1, 1⟩).closed = false := by
  refine ⟨by decide, by decide, by decide, rfl⟩

/-- C6 amended: rotation is a no-op while `now - created` is at most 24
hours (including exactly 24 hours); when strictly more, the active file
is swapped for a fresh one named from the day-truncated current date, and
the old `Logfile` is handed back exactly as it was — in particular its
handle is not closed. -/
theorem rotate_strict_24h_no_close (lf : Logfile) (today : Date) (s : Nat) :
    (dateSec today + s ≤ lf.created + 86400 →
      rotateLogfile lf today s = ⟨lf, none⟩) ∧
    (lf.created + 86400 < dateSec today + s →
      rotateLogfile lf today s = ⟨NewLogfile today, some lf⟩ ∧
      (NewLogfile today).name = fmtDate today ++ ".log") := by
  constructor
  · intro h
    have ho : lf.Old (dateSec today + s) = false := by
      unfold Logfile.Old
      simp only [decide_eq_false_iff_not]
      omega
    unfold rotateLogfile
    simp [ho]
  · intro h
    have ho : lf.Old (dateSec today + s) = true := by
      unfold Logfile.Old
      simp only [decide_eq_true_eq]
      omega
    refine ⟨?_, rfl⟩
    unfold rotateLogfile
    simp [ho]

/-- Witness for C6 amended, at exactly 24 hours (no-op) and at 25 hours
(swap, old handle returned unclosed). -/
theorem rotate_strict_24h_no_close_witness :
    rotateLogfile (NewLogfile ⟨2024, 1, 1⟩) ⟨2024, 1, 2⟩ 0 =
      ⟨NewLogfile ⟨2024, 1, 1⟩, none⟩ ∧
    rotateLogfile (NewLogfile ⟨2024, 1, 1⟩) ⟨2024, 1, 2⟩ 3600 =
      ⟨NewLogfile ⟨2024, 1, 2⟩, some (NewLogfile ⟨2024, 1, 1⟩)⟩ :=
  ⟨(rotate_strict_24h_no_close (NewLogfile ⟨2024, 1, 1⟩) ⟨2024, 1, 2⟩ 0).1
      (by decide),
   ((rotate_strict_24h_no_close (NewLogfile ⟨2024, 1, 1⟩) ⟨2024, 1, 2⟩ 3600).2
      (by decide)).1⟩
